import Mathlib

/-!
Verification of the syntaxExtractor extension sources.

The host language is JavaScript/TypeScript.  A JS string is modelled as the
list of its Unicode scalar values (`Str`); the JS `.length` property counts
UTF-16 code units, which is modelled by `utf16Length` (an astral character,
i.e. one with code point at least 0x10000, occupies two code units).
Asynchronous VS Code API calls that only produce effects outside the model
(posting a message to the webview, revealing a panel) are modelled as
explicit output values.
-/

namespace SyntaxExtractor

/-- A JS string, as the list of its Unicode scalar values. -/
abbrev Str := List Char

/-- JS `String.prototype.length`: the number of UTF-16 code units.  A scalar
value below 0x10000 is one code unit, anything above is a surrogate pair. -/
def utf16Length : Str → Nat
  | [] => 0
  | c :: rest => (if c.toNat < 0x10000 then 1 else 2) + utf16Length rest

/-- The number of Unicode scalar values of a string. -/
def scalarCount (s : Str) : Nat := s.length

/-- The compression levels of the configuration (spec §3). -/
inductive CompressionLevel where
  | levelNone
  | levelLight
  | levelFull
deriving DecidableEq

/-- The slice of `ConfigManager` state read and written by
`handleReceivedMessage` in the shown source: compression level, file-type
list and the clipboard box height. -/
structure Config where
  compressionLevel : CompressionLevel
  fileTypes : List Str
  clipboardDataBoxHeight : Int
deriving DecidableEq

/-- Messages posted from the extension host to the webview
(`panel.webview.postMessage`). -/
inductive OutMessage where
  | refreshComplete
  | setTokenCount (count : Nat)
  | setCharCount (count : Nat)
  | configUpdatedFileTypesOnly (fileTypes : List Str)
  | configUpdated (compressionLevel : CompressionLevel) (fileTypes : List Str)
      (clipboardDataBoxHeight : Int)
  | updateClipboardDataBox (content : Str) (tokenCount charCount : Option Nat)
deriving DecidableEq

/-- Messages received from the webview, one constructor per `case` of the
`switch` in `handleReceivedMessage`; `other` stands for any unrecognized
command string. -/
inductive WebviewMessage where
  | refreshFileTypes
  | setCompressionLevel (level : CompressionLevel)
  | setFileTypes (fileTypes : List Str)
  | setClipboardDataBoxHeight (height : Int)
  | openWebpage
  | countTokens (text : Str)
  | countChars (text : Str)
  | requestCounts (text : Str)
  | updateFileTypes (fileType : Str)
  | other (command : Str)
deriving DecidableEq

/-- Modelled from the spec: `getTokenCount` lives in `./operations`, which is
not among the shown sources.  The spec (§4.5) requires a deterministic,
whitespace-and-punctuation-aware segmentation.  The model counts each maximal
run of non-whitespace non-punctuation characters as one token and each
punctuation character as its own token.  `tokenScan inTok s` carries the
state "currently inside a run". -/
def isTokenSpace (c : Char) : Bool :=
  c == ' ' || c == '\t' || c == '\n' || c == '\r'

/-- Punctuation characters recognised by the token-segmentation model. -/
def isTokenPunct (c : Char) : Bool :=
  c == '.' || c == ',' || c == ';' || c == ':' || c == '!' || c == '?' ||
  c == '(' || c == ')' || c == '[' || c == ']' || c == '<' || c == '>' ||
  c == '=' || c == '+' || c == '-' || c == '*' || c == '/' || c == '"'

/-- State-machine core of the token count: `inTok` records whether the scan
is inside a run of word characters. -/
def tokenScan : Bool → Str → Nat
  | _, [] => 0
  | inTok, c :: rest =>
    if isTokenSpace c then tokenScan false rest
    else if isTokenPunct c then 1 + tokenScan false rest
    else if inTok then tokenScan true rest
    else 1 + tokenScan true rest

/-- Modelled from the spec: the approximate token count of §4.5. -/
def getTokenCount (text : Str) : Nat := tokenScan false text

/-- The `updateFileTypes` toggle of `handleReceivedMessage`: JS
`indexOf`/`splice` removes the first occurrence when present, `push` appends
otherwise. -/
def updateFileTypesToggle (cur : List Str) (ft : Str) : List Str :=
  if ft ∈ cur then cur.erase ft else cur ++ [ft]

/-- The message handler of the extension host (`handleReceivedMessage`).
`refreshEffect` is the file-type list written back by the external
`initializeFileTypeConfiguration` routine (not among the shown sources; the
spec (§6) describes it as an external workspace scan that reseeds the
configuration store).  Returns the updated configuration and the list of
messages posted, in order.  After the `switch`, the handler always posts a
`configUpdated` message built from the configuration store. -/
def handleReceivedMessage (refreshEffect : List Str) (msg : WebviewMessage)
    (cfg : Config) : Config × List OutMessage :=
  let step : Config × List OutMessage :=
    match msg with
    | .refreshFileTypes =>
        ({cfg with fileTypes := refreshEffect}, [.refreshComplete])
    | .setCompressionLevel level => ({cfg with compressionLevel := level}, [])
    | .setFileTypes fts => ({cfg with fileTypes := fts}, [])
    | .setClipboardDataBoxHeight h => ({cfg with clipboardDataBoxHeight := h}, [])
    | .openWebpage => (cfg, [])
    | .countTokens text => (cfg, [.setTokenCount (getTokenCount text)])
    | .countChars text => (cfg, [.setCharCount (utf16Length text)])
    | .requestCounts text =>
        (cfg, [.setTokenCount (getTokenCount text), .setCharCount (utf16Length text)])
    | .updateFileTypes ft =>
        let newTypes := updateFileTypesToggle cfg.fileTypes ft
        ({cfg with fileTypes := newTypes}, [.configUpdatedFileTypesOnly newTypes])
    | .other _ => (cfg, [])
  (step.1,
   step.2 ++ [.configUpdated step.1.compressionLevel step.1.fileTypes
                step.1.clipboardDataBoxHeight])

/-- The FileTypeSet invariant of spec §3: non-empty, begins with a dot,
lower-cased (no upper-case letter). -/
def validFileType (s : Str) : Bool :=
  (match s with | '.' :: _ => true | _ => false) && s.all (fun c => !c.isUpper)

/-- One tick of the `setInterval` callback of `clipBoardPolling`: when the
clipboard content differs from the last known content it posts
`updateClipboardDataBox` carrying the content only (no token or char count
fields) and updates the last known content; otherwise it posts nothing. -/
def intervalPollStep (lastKnown content : Str) : Option OutMessage × Str :=
  if content ≠ lastKnown then
    (some (.updateClipboardDataBox content none none), content)
  else (none, lastKnown)

/-- The one-shot check at the end of `clipBoardPolling`: when the clipboard
content differs from the last known content it posts
`updateClipboardDataBox` carrying the content together with
`getTokenCount content` and the JS `.length` of the content. -/
def initialPollCheck (lastKnown content : Str) : Option OutMessage × Str :=
  if content ≠ lastKnown then
    (some (.updateClipboardDataBox content (some (getTokenCount content))
      (some (utf16Length content))), content)
  else (none, lastKnown)

/-- Outcome of the `codeExtractor.extractCode` command handler: either a
user-visible warning with no engine call, or a call of `extractCode` on the
given root list. -/
inductive ExtractOutcome where
  | warned
  | extracted (roots : List Str)
deriving DecidableEq

/-- The `codeExtractor.extractCode` command handler: with no `uris` (or an
empty list) it falls back to the single `uri`; with neither it shows the
warning `No folders selected for extraction.` and returns without calling
`extractCode`. -/
def extractCodeHandler (uri : Option Str) (uris : Option (List Str)) :
    ExtractOutcome :=
  match uris with
  | none => (match uri with | some u => .extracted [u] | none => .warned)
  | some [] => (match uri with | some u => .extracted [u] | none => .warned)
  | some us => .extracted us

/-- Error taxonomy entry of spec §7 signalled by the walk. -/
inductive WalkError where
  | emptySelection
deriving DecidableEq

/-- Modelled from the spec: the walk of §4.2 lives in
`./commands/codeExtractor`, which is not among the shown sources.  Per the
spec it never fails unless all requested root paths are invalid, in which
case it signals `EmptySelection`.  `valid` is the file-system judgment of
which paths resolve. -/
def walkRoots (valid : Str → Bool) (roots : List Str) :
    Except WalkError (List Str) :=
  let vs := roots.filter valid
  if vs.isEmpty then .error .emptySelection else .ok vs

/-- `getWebviewContent` of `src/src/extension.ts`: `fs.readFileSync` is not
wrapped in any `try`, so a read failure propagates as an exception
(`Except.error`); on success the script tag is rewritten (`rewrite`). -/
def getWebviewContent.ts (readResult : Except String String)
    (rewrite : String → String) : Except String String :=
  match readResult with
  | .error e => .error e
  | .ok content => .ok (rewrite content)

/-- `getWebviewContent` of the JavaScript extension source: the read is
wrapped in `try`/`catch` and a failure returns an error HTML page embedding
the error message. -/
def getWebviewContent.js (readResult : Except String String)
    (rewrite : String → String) : String :=
  match readResult with
  | .ok content => rewrite content
  | .error e =>
      "<html><body><h1>Error loading webview content</h1><p>" ++ e ++
        "</p></body></html>"

/-- `composeWebViewContent` of the TypeScript extension source: the read is
wrapped in `try`/`catch` and a failure returns the fallback string. -/
def composeWebViewContent (readResult : Except String String)
    (rewrite : String → String) : String :=
  match readResult with
  | .ok content => rewrite content
  | .error _ => "Error loading webview content."

/-- Action taken by one invocation of `openWebviewAndExplorerSidebar`. -/
inductive OpenAction where
  | revealed (id : Nat)
  | created (id : Nat)
deriving DecidableEq

/-- State of the webview-panel singleton: the `globalPanel` reference, the
multiset of panels created and not yet disposed, and a fresh-id counter. -/
structure PanelSys where
  globalPanel : Option Nat
  livePanels : List Nat
  nextId : Nat
deriving DecidableEq

/-- The initial state: no panel exists. -/
def PanelSys.init : PanelSys := ⟨none, [], 0⟩

/-- `openWebviewAndExplorerSidebar`: reveal the existing panel when
`globalPanel` is set, otherwise create exactly one new panel and store the
reference. -/
def openPanel (s : PanelSys) : PanelSys × OpenAction :=
  match s.globalPanel with
  | some p => (s, .revealed p)
  | none =>
      (⟨some s.nextId, s.nextId :: s.livePanels, s.nextId + 1⟩, .created s.nextId)

/-- The `onDidDispose` callback: the disposed panel leaves the live set and
the `globalPanel` reference is cleared. -/
def disposePanel (s : PanelSys) : PanelSys :=
  match s.globalPanel with
  | some p => ⟨none, s.livePanels.erase p, s.nextId⟩
  | none => s

/-- The events a panel-system trace is built from. -/
inductive PanelEvent where
  | openEvt
  | disposeEvt
deriving DecidableEq

/-- Run a trace of panel events from a state. -/
def runPanelEvents (s : PanelSys) : List PanelEvent → PanelSys
  | [] => s
  | .openEvt :: rest => runPanelEvents (openPanel s).1 rest
  | .disposeEvt :: rest => runPanelEvents (disposePanel s) rest

/-- The singleton invariant: the live panels are exactly what `globalPanel`
references. -/
def panelInv (s : PanelSys) : Prop :=
  s.livePanels = s.globalPanel.toList

/-- A directory entry seen by the walk: display name and directory flag. -/
structure Entry where
  name : Str
  isDir : Bool
deriving DecidableEq

/-- Sort rank of an entry: directories precede files (spec §4.2). -/
def dirRank (e : Entry) : Nat := if e.isDir then 0 else 1

/-- Case-insensitive sort key of an entry's name. -/
def lowerName (e : Entry) : Str := e.name.map Char.toLower

/-- Lexicographic comparison of strings by scalar value. -/
def leStr : Str → Str → Bool
  | [], _ => true
  | _ :: _, [] => false
  | a :: as, b :: bs => if a < b then true else if b < a then false else leStr as bs

/-- Modelled from the spec: the child ordering of the TreeWalker (§4.2),
which lives in `./commands/codeExtractor`, not among the shown sources:
directories precede files, and within each group names compare
alphabetically case-insensitively. -/
def childLE (a b : Entry) : Prop :=
  (if dirRank a < dirRank b then true
   else if dirRank b < dirRank a then false
   else leStr (lowerName a) (lowerName b)) = true

instance : DecidableRel childLE := fun a b =>
  inferInstanceAs (Decidable ((if dirRank a < dirRank b then true
    else if dirRank b < dirRank a then false
    else leStr (lowerName a) (lowerName b)) = true))

instance : IsTotal Entry childLE := by
  have hT : ∀ s t : Str, leStr s t = true ∨ leStr t s = true := by
    intro s
    induction s with
    | nil => intro t; exact Or.inl rfl
    | cons a as ih =>
        intro t
        cases t with
        | nil => exact Or.inr rfl
        | cons b bs =>
            rcases lt_trichotomy a b with h | h | h
            · left; simp [leStr, h]
            · subst h
              rcases ih bs with h' | h'
              · left; simp [leStr, h']
              · right; simp [leStr, h']
            · right; simp [leStr, h]
  constructor
  intro a b
  unfold childLE
  rcases Nat.lt_trichotomy (dirRank a) (dirRank b) with h | h | h
  · left; simp [h]
  · rcases hT (lowerName a) (lowerName b) with h' | h'
    · left; simp [h, h']
    · right; simp [h, h']
  · right; simp [h]

instance : IsTrans Entry childLE := by
  have hT : ∀ s t u : Str, leStr s t = true → leStr t u = true →
      leStr s u = true := by
    intro s
    induction s with
    | nil => intro t u _ _; rfl
    | cons a as ih =>
        intro t u h1 h2
        cases t with
        | nil => simp [leStr] at h1
        | cons b bs =>
            cases u with
            | nil => simp [leStr] at h2
            | cons c cs =>
                by_cases hab : a < b
                · by_cases hbc : b < c
                  · simp [leStr, hab.trans hbc]
                  · by_cases hcb : c < b
                    · simp [leStr, hbc, hcb] at h2
                    · have hb : b = c := le_antisymm (not_lt.mp hcb) (not_lt.mp hbc)
                      subst hb
                      simp [leStr, hab]
                · by_cases hba : b < a
                  · simp [leStr, hab, hba] at h1
                  · have ha : a = b := le_antisymm (not_lt.mp hba) (not_lt.mp hab)
                    subst ha
                    simp only [leStr, if_neg hab, if_neg hba] at h1
                    by_cases hbc : a < c
                    · simp [leStr, hbc]
                    · by_cases hcb : c < a
                      · simp [leStr, hbc, hcb] at h2
                      · simp only [leStr, if_neg hbc, if_neg hcb] at h2 ⊢
                        exact ih bs cs h1 h2
  have hch : ∀ a b : Entry, childLE a b ↔ (dirRank a < dirRank b ∨
      (dirRank a = dirRank b ∧ leStr (lowerName a) (lowerName b) = true)) := by
    intro a b
    unfold childLE
    rcases Nat.lt_trichotomy (dirRank a) (dirRank b) with h | h | h
    · simp [h]
    · simp [h, lt_irrefl]
    · simp [h, Nat.lt_asymm h, Nat.ne_of_gt h]
  constructor
  intro a b c hab hbc
  rw [hch] at hab hbc ⊢
  rcases hab with h1 | ⟨h1, h1'⟩
  · rcases hbc with h2 | ⟨h2, _⟩
    · exact Or.inl (h1.trans h2)
    · exact Or.inl (h2 ▸ h1)
  · rcases hbc with h2 | ⟨h2, h2'⟩
    · exact Or.inl (h1 ▸ h2)
    · exact Or.inr ⟨h1.trans h2, hT _ _ _ h1' h2'⟩

/-- Modelled from the spec: sorting of a directory's children (§4.2). -/
def sortChildren (es : List Entry) : List Entry := List.insertionSort childLE es

/-- Horizontal whitespace stripped from line ends by Light compression. -/
def isTrailWS (c : Char) : Bool := c == ' ' || c == '\t' || c == '\r'

/-- Remove trailing whitespace from one line (spec §3, Light). -/
def stripTrailing (l : Str) : Str := (l.reverse.dropWhile isTrailWS).reverse

/-- Collapse each run of consecutive empty lines to a single empty line
(spec §3: "collapse runs of blank lines"; after `stripTrailing` a blank line
is empty). -/
def collapseBlanks : List Str → List Str
  | [] => []
  | l :: rest =>
      let r := collapseBlanks rest
      if l = [] then
        match r with
        | [] :: _ => r
        | _ => [] :: r
      else l :: r

/-- Modelled from the spec: the Light compression transform (§3): collapse
runs of blank lines and trailing whitespace.  Text is represented as its
list of lines.  The transform itself is not among the shown sources. -/
def lightCompress (t : List Str) : List Str :=
  collapseBlanks (t.map stripTrailing)

/-- Comment stripping for one line, threading the "inside a block comment"
state across lines.  In a block comment, characters are dropped until `*/`.
Outside, `//` drops the rest of the line, `/*` opens a block and is replaced
by a single space (so that dropping a block never glues a preceding `/` to a
following `*` or `/`), and any other character is kept. -/
def stripLineFrom : Bool → Str → Str × Bool
  | st, [] => ([], st)
  | st, [c] => if st then ([], true) else ([c], false)
  | st, a :: b :: rest =>
      if st then
        if a = '*' ∧ b = '/' then stripLineFrom false rest
        else stripLineFrom true (b :: rest)
      else
        if a = '/' ∧ b = '/' then ([], false)
        else if a = '/' ∧ b = '*' then
          let o := stripLineFrom true rest
          (' ' :: o.1, o.2)
        else
          let o := stripLineFrom false (b :: rest)
          (a :: o.1, o.2)

/-- Modelled from the spec: the comment-stripping pass of Full compression
(§3), a best-effort language-agnostic heuristic, applied line by line with
the block-comment state threaded through. -/
def stripCommentsLines (st : Bool) : List Str → List Str
  | [] => []
  | l :: rest =>
      let o := stripLineFrom st l
      o.1 :: stripCommentsLines o.2 rest

/-- Modelled from the spec: the Full compression transform (§3):
additionally strip single-line and block comments, then collapse whitespace
and blank lines as Light does. -/
def fullCompress (t : List Str) : List Str :=
  lightCompress (stripCommentsLines false t)

/-- Modelled from the spec: the compression transform selected by a
`CompressionLevel` (§3); None is the identity. -/
def compress : CompressionLevel → List Str → List Str
  | .levelNone, t => t
  | .levelLight, t => lightCompress t
  | .levelFull, t => fullCompress t

/-- Two adjacent characters opening a line or block comment. -/
def commentPair (a b : Char) : Bool := a == '/' && (b == '/' || b == '*')

/-- No two adjacent characters of the line open a comment. -/
def noCommentStart : Str → Bool
  | [] => true
  | [_] => true
  | a :: b :: rest => !commentPair a b && noCommentStart (b :: rest)

/-- No two adjacent lines are both empty. -/
def noAdjBlank : List Str → Bool
  | [] => true
  | [_] => true
  | a :: b :: rest => !(a = [] && b = []) && noAdjBlank (b :: rest)

/-- A concrete configuration used for concrete evaluations. -/
def cfg0 : Config := ⟨.levelNone, [], 0⟩

/-- U+1D11E MUSICAL SYMBOL G CLEF, a scalar value outside the Basic
Multilingual Plane: one scalar value, two UTF-16 code units. -/
def astral : Char := Char.ofNat 0x1D11E

end SyntaxExtractor

namespace SyntaxExtractor

/-! Helper lemmas shared by the claim theorems. -/

theorem utf16Length_eq_scalarCount_of_bmp (text : Str)
    (h : ∀ c ∈ text, c.toNat < 0x10000) : utf16Length text = scalarCount text := by
  induction text with
  | nil => rfl
  | cons c rest ih =>
      have hc : c.toNat < 0x10000 := h c (List.mem_cons_self c rest)
      have hrest : ∀ x ∈ rest, x.toNat < 0x10000 := fun x hx => h x (List.mem_cons_of_mem c hx)
      simp [utf16Length, scalarCount, hc, ih hrest, List.length_cons, Nat.add_comm]

theorem tokenScan_le_append (s t : Str) (b : Bool) :
    tokenScan b s ≤ tokenScan b (s ++ t) := by
  induction s generalizing b with
  | nil => simp [tokenScan]
  | cons c rest ih =>
      simp only [List.cons_append, tokenScan]
      by_cases hs : isTokenSpace c = true
      · simpa [hs] using ih false
      · by_cases hp : isTokenPunct c = true
        · simpa [hs, hp] using Nat.add_le_add_left (ih false) 1
        · by_cases hb : b
          · simpa [hs, hp, hb] using ih true
          · simpa [hs, hp, hb] using Nat.add_le_add_left (ih true) 1

theorem updateFileTypesToggle_valid (cur : List Str) (ft : Str)
    (hcur : cur.all validFileType = true) (hft : validFileType ft = true) :
    (updateFileTypesToggle cur ft).all validFileType = true := by
  unfold updateFileTypesToggle
  split
  · rw [List.all_eq_true] at hcur ⊢
    exact fun x hx => hcur x ((cur.erase_sublist ft).subset hx)
  · rw [List.all_eq_true] at hcur ⊢
    intro x hx
    rcases List.mem_append.mp hx with h | h
    · exact hcur x h
    · rcases List.mem_singleton.mp h with rfl
      exact hft

/-- C1 (counterexample): for the one-character text U+1D11E the handler
posts `setCharCount 2` (the JS `.length`, counting UTF-16 code units) while
the text has exactly one Unicode scalar value, so the returned charCount is
not the number of scalar values. -/
theorem c1_charCount_cex :
    (handleReceivedMessage [] (.countChars [astral]) cfg0).2.head? =
      some (.setCharCount 2) ∧ scalarCount [astral] = 1 ∧ (2 : Nat) ≠ 1 := by
  decide

/-- C1 (amended): the charCount returned for the `countChars` and
`requestCounts` messages is the number of UTF-16 code units of the text
(JS `.length`); it coincides with the number of Unicode scalar values
exactly when every character lies in the Basic Multilingual Plane. -/
theorem c1_charCount_utf16 (text : Str) (cfg : Config) (re : List Str) :
    (handleReceivedMessage re (.countChars text) cfg).2.head? =
      some (.setCharCount (utf16Length text)) ∧
    (handleReceivedMessage re (.requestCounts text) cfg).2[1]? =
      some (.setCharCount (utf16Length text)) ∧
    ((∀ c ∈ text, c.toNat < 0x10000) → utf16Length text = scalarCount text) := by
  refine ⟨by simp [handleReceivedMessage], by simp [handleReceivedMessage], ?_⟩
  exact utf16Length_eq_scalarCount_of_bmp text

/-- C1 (witness): the amended theorem applied to the text "a". -/
theorem c1_charCount_utf16_witness :
    utf16Length ['a'] = scalarCount ['a'] :=
  (c1_charCount_utf16 ['a'] cfg0 []).2.2 (by decide)

/-- C2 (counterexample): the `updateFileTypes` toggle performs no
normalization or validation: toggling the string "TXT" into the valid set
containing only ".ts" leaves an entry that is neither lower-cased nor
dot-prefixed, so the mutation does not preserve the invariant. -/
theorem c2_fileTypes_invariant_cex :
    [['.', 't', 's']].all validFileType = true ∧
    validFileType ['T', 'X', 'T'] = false ∧
    (handleReceivedMessage [] (.updateFileTypes ['T', 'X', 'T'])
        ⟨.levelNone, [['.', 't', 's']], 0⟩).1.fileTypes.all validFileType = false := by
  decide

/-- C2 (amended): the `updateFileTypes` toggle preserves the FileTypeSet
invariant provided the toggled string itself satisfies it: starting from a
set of non-empty, lower-cased, dot-prefixed entries, toggling a string of
that shape either removes its first occurrence or appends it, and every
entry of the result again satisfies the invariant. -/
theorem c2_fileTypes_invariant (cfg : Config) (ft : Str) (re : List Str)
    (hcur : cfg.fileTypes.all validFileType = true)
    (hft : validFileType ft = true) :
    (handleReceivedMessage re (.updateFileTypes ft) cfg).1.fileTypes.all
      validFileType = true := by
  simpa [handleReceivedMessage] using
    updateFileTypesToggle_valid cfg.fileTypes ft hcur hft

/-- C2 (witness): toggling ".md" into the set containing ".ts". -/
theorem c2_fileTypes_invariant_witness :
    (handleReceivedMessage [] (.updateFileTypes ['.', 'm', 'd'])
        ⟨.levelNone, [['.', 't', 's']], 0⟩).1.fileTypes.all validFileType = true :=
  c2_fileTypes_invariant ⟨.levelNone, [['.', 't', 's']], 0⟩ ['.', 'm', 'd'] []
    (by decide) (by decide)

/-- C3 (counterexample): when the interval poller of `clipBoardPolling`
detects new clipboard content it posts `updateClipboardDataBox` carrying the
content but no token or char count, so new content is not forwarded together
with counts computed by the Counter. -/
theorem c3_clipboardPoll_cex :
    intervalPollStep [] ['a'] =
      (some (.updateClipboardDataBox ['a'] none none), ['a']) ∧
    (['a'] : Str) ≠ [] := by
  decide

/-- C3 (amended): on content differing from the last known content, the
interval poller posts the new content without counts, while the one-shot
check at the start of `clipBoardPolling` posts the new content together with
`getTokenCount` and the JS `.length`; on unchanged content neither posts
anything. -/
theorem c3_clipboardPoll (lastKnown content : Str) (h : content ≠ lastKnown) :
    intervalPollStep lastKnown content =
      (some (.updateClipboardDataBox content none none), content) ∧
    initialPollCheck lastKnown content =
      (some (.updateClipboardDataBox content (some (getTokenCount content))
        (some (utf16Length content))), content) ∧
    intervalPollStep lastKnown lastKnown = (none, lastKnown) ∧
    initialPollCheck lastKnown lastKnown = (none, lastKnown) := by
  simp [intervalPollStep, initialPollCheck, h]

/-- C3 (witness): the amended theorem at last known "" and content "a". -/
theorem c3_clipboardPoll_witness :
    intervalPollStep [] ['a'] =
      (some (.updateClipboardDataBox ['a'] none none), ['a']) ∧
    initialPollCheck [] ['a'] =
      (some (.updateClipboardDataBox ['a'] (some (getTokenCount ['a']))
        (some (utf16Length ['a']))), ['a']) ∧
    intervalPollStep [] [] = (none, []) ∧
    initialPollCheck [] [] = (none, []) :=
  c3_clipboardPoll [] ['a'] (by decide)

/-- C4: with neither `uris` nor `uri` the command handler shows the warning
and returns without invoking `extractCode`; a bare `uri` is promoted to the
root list; and (walk modelled from the spec) the walk succeeds whenever at
least one requested root path is valid. -/
theorem c4_emptySelection (valid : Str → Bool) (roots : List Str) (u : Str)
    (us : List Str) (h : ∃ r ∈ roots, valid r = true) :
    extractCodeHandler none none = .warned ∧
    extractCodeHandler none (some []) = .warned ∧
    extractCodeHandler (some u) none = .extracted [u] ∧
    extractCodeHandler (some u) (some []) = .extracted [u] ∧
    extractCodeHandler (some u) (some (u :: us)) = .extracted (u :: us) ∧
    ∃ vs, walkRoots valid roots = .ok vs := by
  obtain ⟨r, hr, hv⟩ := h
  have hm : r ∈ roots.filter valid := List.mem_filter.mpr ⟨hr, hv⟩
  refine ⟨rfl, rfl, rfl, rfl, rfl, ⟨roots.filter valid, ?_⟩⟩
  have hne : (roots.filter valid).isEmpty = false := by
    cases hF : roots.filter valid with
    | nil => rw [hF] at hm; cases hm
    | cons a l => rfl
  simp [walkRoots, hne]

/-- C4 (witness): the theorem at root list ["a"] with every path valid. -/
theorem c4_emptySelection_witness :
    extractCodeHandler none none = .warned ∧
    extractCodeHandler none (some []) = .warned ∧
    extractCodeHandler (some ['a']) none = .extracted [['a']] ∧
    extractCodeHandler (some ['a']) (some []) = .extracted [['a']] ∧
    extractCodeHandler (some ['a']) (some (['a'] :: [])) = .extracted (['a'] :: []) ∧
    ∃ vs, walkRoots (fun _ => true) [['a']] = .ok vs :=
  c4_emptySelection (fun _ => true) [['a']] ['a'] []
    ⟨['a'], by decide, rfl⟩

/-- C5 (counterexample): `getWebviewContent` of `src/src/extension.ts` does
not wrap `fs.readFileSync` in any `try`, so an unreadable webview HTML file
makes the call propagate the exception instead of returning a fallback error
string. -/
theorem c5_webviewContent_cex :
    getWebviewContent.ts (Except.error "ENOENT") id = Except.error "ENOENT" ∧
    (getWebviewContent.ts (Except.error "ENOENT") id).isOk = false := by
  exact ⟨rfl, rfl⟩

/-- C5 (amended): the two webview HTML loaders of the later sources map a
read failure to a soft outcome: `composeWebViewContent` returns the fallback
string and the JavaScript `getWebviewContent` returns an error HTML page, so
neither propagates the failure; the loader of `src/src/extension.ts`,
however, propagates the exception unchanged. -/
theorem c5_webviewContent_fallback (e : String) (rewrite : String → String) :
    composeWebViewContent (Except.error e) rewrite =
      "Error loading webview content." ∧
    getWebviewContent.js (Except.error e) rewrite =
      "<html><body><h1>Error loading webview content</h1><p>" ++ e ++
        "</p></body></html>" ∧
    getWebviewContent.ts (Except.error e) rewrite = Except.error e := by
  exact ⟨rfl, rfl, rfl⟩

/-- C6: appending any non-empty string never decreases the token count, and
on the empty string the token count and the char count are both 0
(token counter modelled from the spec, §4.5). -/
theorem c6_counter_monotone (text app : Str) (_happ : app ≠ []) :
    getTokenCount text ≤ getTokenCount (text ++ app) ∧
    getTokenCount [] = 0 ∧ utf16Length [] = 0 ∧ scalarCount [] = 0 := by
  exact ⟨tokenScan_le_append text app false, rfl, rfl, rfl⟩

/-- C6 (witness): the theorem at text "a b" and appended string "c". -/
theorem c6_counter_monotone_witness :
    getTokenCount ['a', ' ', 'b'] ≤ getTokenCount (['a', ' ', 'b'] ++ ['c']) ∧
    getTokenCount [] = 0 ∧ utf16Length [] = 0 ∧ scalarCount [] = 0 :=
  c6_counter_monotone ['a', ' ', 'b'] ['c'] (by decide)

/-- C10: whatever message the webview sends, recognized or not, the last
message the handler posts back is `configUpdated`, carrying the compression
level, file types and clipboard box height of the configuration store after
the handling. -/
theorem c10_always_configUpdated (re : List Str) (msg : WebviewMessage)
    (cfg : Config) :
    ((handleReceivedMessage re msg cfg).2).getLast? =
      some (.configUpdated (handleReceivedMessage re msg cfg).1.compressionLevel
        (handleReceivedMessage re msg cfg).1.fileTypes
        (handleReceivedMessage re msg cfg).1.clipboardDataBoxHeight) := by
  cases msg <;> simp [handleReceivedMessage]

theorem panelInv_openPanel (s : PanelSys) (hs : panelInv s) :
    panelInv (openPanel s).1 := by
  unfold panelInv at *
  cases h : s.globalPanel with
  | some p => simp [openPanel, h, hs]
  | none =>
      rw [h] at hs
      simp [openPanel, h, hs]

theorem panelInv_disposePanel (s : PanelSys) (hs : panelInv s) :
    panelInv (disposePanel s) := by
  unfold panelInv at *
  cases h : s.globalPanel with
  | some p =>
      rw [h] at hs
      simp [disposePanel, h, hs]
  | none => simp [disposePanel, h, hs]

theorem panelInv_run (evts : List PanelEvent) (s : PanelSys) (hs : panelInv s) :
    panelInv (runPanelEvents s evts) := by
  induction evts generalizing s with
  | nil => exact hs
  | cons e rest ih =>
      cases e with
      | openEvt => exact ih _ (panelInv_openPanel s hs)
      | disposeEvt => exact ih _ (panelInv_disposePanel s hs)

/-- C9: at most one webview panel is live at any time.  Starting from any
state whose live panels match the `globalPanel` reference, any trace of
open/dispose events preserves that invariant; from the initial state at most
one panel is ever live; and one invocation of
`openWebviewAndExplorerSidebar` reveals the existing panel without creating
one when the reference is set, and creates exactly one new panel when it is
not (in particular right after a dispose cleared the reference). -/
theorem c9_panel_singleton (evts : List PanelEvent) (s : PanelSys)
    (hs : panelInv s) :
    panelInv (runPanelEvents s evts) ∧
    (runPanelEvents PanelSys.init evts).livePanels.length ≤ 1 ∧
    (∀ p, s.globalPanel = some p → openPanel s = (s, OpenAction.revealed p)) ∧
    (s.globalPanel = none →
      (openPanel s).1.livePanels = [s.nextId] ∧
      (openPanel s).2 = OpenAction.created s.nextId ∧
      (disposePanel (openPanel s).1).globalPanel = none) := by
  refine ⟨panelInv_run evts s hs, ?_, ?_, ?_⟩
  · have h := panelInv_run evts PanelSys.init rfl
    unfold panelInv at h
    rw [h]
    cases (runPanelEvents PanelSys.init evts).globalPanel <;> simp
  · intro p hp
    simp [openPanel, hp]
  · intro hnone
    unfold panelInv at hs
    rw [hnone] at hs
    simp [openPanel, disposePanel, hnone, hs]

/-- C9 (witness): the theorem at the initial state and the trace
open, dispose, open. -/
theorem c9_panel_singleton_witness :
    panelInv (runPanelEvents PanelSys.init
      [PanelEvent.openEvt, PanelEvent.disposeEvt, PanelEvent.openEvt]) ∧
    (runPanelEvents PanelSys.init
      [PanelEvent.openEvt, PanelEvent.disposeEvt, PanelEvent.openEvt]).livePanels.length ≤ 1 ∧
    (∀ p, PanelSys.init.globalPanel = some p →
      openPanel PanelSys.init = (PanelSys.init, OpenAction.revealed p)) ∧
    (PanelSys.init.globalPanel = none →
      (openPanel PanelSys.init).1.livePanels = [PanelSys.init.nextId] ∧
      (openPanel PanelSys.init).2 = OpenAction.created PanelSys.init.nextId ∧
      (disposePanel (openPanel PanelSys.init).1).globalPanel = none) :=
  c9_panel_singleton [PanelEvent.openEvt, PanelEvent.disposeEvt, PanelEvent.openEvt]
    PanelSys.init rfl

/-- C8: the sorted children of a directory are a permutation of its entries
in which every directory precedes every file and, within each group, names
are in case-insensitive alphabetical order; in particular `sub/`, `a.ts`,
`b.ts` is the rendered order of a directory holding `b.ts`, `a.ts` and
`sub/` (ordering modelled from the spec, §4.2). -/
theorem c8_children_order (es : List Entry) :
    (sortChildren es).Pairwise (fun a b =>
      (b.isDir = true → a.isDir = true) ∧
      (a.isDir = b.isDir → leStr (lowerName a) (lowerName b) = true)) ∧
    (sortChildren es).Perm es ∧
    sortChildren [⟨['b', '.', 't', 's'], false⟩, ⟨['a', '.', 't', 's'], false⟩,
        ⟨['s', 'u', 'b'], true⟩] =
      [⟨['s', 'u', 'b'], true⟩, ⟨['a', '.', 't', 's'], false⟩,
        ⟨['b', '.', 't', 's'], false⟩] := by
  refine ⟨?_, List.perm_insertionSort childLE es, ?_⟩
  · have h := List.sorted_insertionSort childLE es
    refine h.imp ?_
    intro a b hab
    unfold childLE at hab
    have hr : dirRank a ≤ dirRank b := by
      by_cases h1 : dirRank a < dirRank b
      · exact le_of_lt h1
      · by_cases h2 : dirRank b < dirRank a
        · simp [h1, h2] at hab
        · exact le_of_not_lt h2
    constructor
    · intro hb
      cases ha : a.isDir with
      | false =>
          exfalso
          rw [dirRank, dirRank, ha, hb] at hr
          simp at hr
      | true => rfl
    · intro hab'
      have he : dirRank a = dirRank b := by simp [dirRank, hab']
      simpa [he, lt_irrefl] using hab
  · decide

theorem dropWhile_dropWhile (p : Char → Bool) (l : List Char) :
    (l.dropWhile p).dropWhile p = l.dropWhile p := by
  induction l with
  | nil => rfl
  | cons c rest ih =>
      by_cases h : p c = true
      · simp [List.dropWhile, h, ih]
      · simp [List.dropWhile, h]

theorem stripTrailing_idem (l : Str) :
    stripTrailing (stripTrailing l) = stripTrailing l := by
  unfold stripTrailing
  rw [List.reverse_reverse, dropWhile_dropWhile]

theorem stripTrailing_prefix (l : Str) : stripTrailing l <+: l := by
  have h : l.reverse.dropWhile isTrailWS <:+ l.reverse :=
    List.dropWhile_suffix isTrailWS
  have h2 := List.reverse_prefix.mpr h
  rwa [List.reverse_reverse] at h2

theorem map_id_of_mem {f : Str → Str} (l : List Str) (h : ∀ x ∈ l, f x = x) :
    l.map f = l := by
  induction l with
  | nil => rfl
  | cons x rest ih =>
      rw [List.map_cons, h x (List.mem_cons_self x rest),
        ih (fun y hy => h y (List.mem_cons_of_mem x hy))]

theorem collapseBlanks_sublist (t : List Str) :
    List.Sublist (collapseBlanks t) t := by
  induction t with
  | nil => exact List.Sublist.refl []
  | cons l rest ih =>
      rw [collapseBlanks]
      by_cases hl : l = []
      · simp only [hl, if_pos rfl]
        cases hr : collapseBlanks rest with
        | nil => exact List.cons_sublist_cons.mpr (hr ▸ ih)
        | cons x r' =>
            cases x with
            | nil => exact (hr ▸ ih).cons []
            | cons c cs => exact List.cons_sublist_cons.mpr (hr ▸ ih)
      · simp only [if_neg hl]
        exact List.cons_sublist_cons.mpr ih

theorem noAdjBlank_tail (l : Str) (t : List Str)
    (h : noAdjBlank (l :: t) = true) : noAdjBlank t = true := by
  cases t with
  | nil => rfl
  | cons y r =>
      rw [noAdjBlank, Bool.and_eq_true] at h
      exact h.2

theorem noAdjBlank_cons_of_ne (l : Str) (t : List Str) (hl : l ≠ [])
    (h : noAdjBlank t = true) : noAdjBlank (l :: t) = true := by
  cases t with
  | nil => rfl
  | cons y r =>
      rw [noAdjBlank, Bool.and_eq_true]
      exact ⟨by simp [hl], h⟩

theorem noAdjBlank_collapseBlanks (t : List Str) :
    noAdjBlank (collapseBlanks t) = true := by
  induction t with
  | nil => rfl
  | cons l rest ih =>
      rw [collapseBlanks]
      by_cases hl : l = []
      · rw [if_pos hl]
        cases hr : collapseBlanks rest with
        | nil => rfl
        | cons x r' =>
            rw [hr] at ih
            cases x with
            | nil => exact ih
            | cons c cs =>
                show noAdjBlank ([] :: (c :: cs) :: r') = true
                rw [noAdjBlank, Bool.and_eq_true]
                exact ⟨by simp, ih⟩
      · rw [if_neg hl]
        exact noAdjBlank_cons_of_ne l _ hl ih

theorem collapseBlanks_eq_self (t : List Str) (h : noAdjBlank t = true) :
    collapseBlanks t = t := by
  induction t with
  | nil => rfl
  | cons l rest ih =>
      have hrest := ih (noAdjBlank_tail l rest h)
      rw [collapseBlanks, hrest]
      by_cases hl : l = []
      · subst hl
        simp only [if_pos rfl]
        cases rest with
        | nil => rfl
        | cons y r =>
            rw [noAdjBlank, Bool.and_eq_true] at h
            have hy : y ≠ [] := by
              rcases h with ⟨h1, _⟩
              intro hy
              simp [hy] at h1
            cases y with
            | nil => exact absurd rfl hy
            | cons c cs => rfl
      · simp only [if_neg hl]

theorem lightCompress_lines_stripped (t : List Str) (l : Str)
    (h : l ∈ lightCompress t) : stripTrailing l = l := by
  unfold lightCompress at h
  have hm : l ∈ t.map stripTrailing := (collapseBlanks_sublist _).subset h
  obtain ⟨x, _, rfl⟩ := List.mem_map.mp hm
  exact stripTrailing_idem x

theorem lightCompress_idem (t : List Str) :
    lightCompress (lightCompress t) = lightCompress t := by
  have hmap : (lightCompress t).map stripTrailing = lightCompress t :=
    map_id_of_mem _ (fun x hx => lightCompress_lines_stripped t x hx)
  show collapseBlanks ((lightCompress t).map stripTrailing) = lightCompress t
  rw [hmap]
  exact collapseBlanks_eq_self _ (noAdjBlank_collapseBlanks _)

theorem noCommentStart_cons_of_ne (c : Char) (xs : Str) (hc : c ≠ '/')
    (h : noCommentStart xs = true) : noCommentStart (c :: xs) = true := by
  cases xs with
  | nil => rfl
  | cons b rest =>
      rw [noCommentStart, Bool.and_eq_true]
      exact ⟨by simp [commentPair, hc], h⟩

theorem noCommentStart_append_left (xs ys : Str)
    (h : noCommentStart (xs ++ ys) = true) : noCommentStart xs = true := by
  induction xs using noCommentStart.induct with
  | case1 => rfl
  | case2 c => rfl
  | case3 a b rest ih =>
      rw [List.cons_append, List.cons_append, noCommentStart,
        Bool.and_eq_true] at h
      rw [noCommentStart, Bool.and_eq_true]
      exact ⟨h.1, ih (by rw [List.cons_append]; exact h.2)⟩

theorem noCommentStart_stripTrailing (l : Str)
    (h : noCommentStart l = true) : noCommentStart (stripTrailing l) = true := by
  obtain ⟨t, ht⟩ := stripTrailing_prefix l
  exact noCommentStart_append_left _ t (ht.symm ▸ h)

theorem stripLineFrom_default (a b : Char) (rest : Str)
    (h1 : ¬(a = '/' ∧ b = '/')) (h2 : ¬(a = '/' ∧ b = '*')) :
    stripLineFrom false (a :: b :: rest) =
      (a :: (stripLineFrom false (b :: rest)).1,
       (stripLineFrom false (b :: rest)).2) := by
  rw [stripLineFrom]
  simp [h1, h2]

theorem stripLineFrom_noCommentStart (st : Bool) (l : Str) :
    noCommentStart (stripLineFrom st l).1 = true := by
  induction st, l using stripLineFrom.induct with
  | case1 st => rfl
  | case2 c => rfl
  | case3 st c hst =>
      cases st with
      | true => exact absurd rfl hst
      | false => rfl
  | case4 a b rest h ih =>
      obtain ⟨rfl, rfl⟩ := h
      simpa [stripLineFrom] using ih
  | case5 a b rest h ih =>
      simpa [stripLineFrom, h] using ih
  | case6 st a b rest hst h =>
      cases st with
      | true => exact absurd rfl hst
      | false =>
          obtain ⟨rfl, rfl⟩ := h
          simp [stripLineFrom, noCommentStart]
  | case7 st a b rest hst h1 h2 ih =>
      cases st with
      | true => exact absurd rfl hst
      | false =>
          obtain ⟨rfl, rfl⟩ := h2
          have hgoal : stripLineFrom false ('/' :: '*' :: rest) =
              (' ' :: (stripLineFrom true rest).1, (stripLineFrom true rest).2) := by
            rw [stripLineFrom]
            simp
          rw [hgoal]
          exact noCommentStart_cons_of_ne ' ' _ (by decide) ih
  | case8 st a b rest hst h1 h2 ih =>
      cases st with
      | true => exact absurd rfl hst
      | false =>
          rw [stripLineFrom_default a b rest h1 h2]
          by_cases hA : a = '/'
          · subst hA
            have hb1 : b ≠ '/' := fun hb => h1 ⟨rfl, hb⟩
            have hb2 : b ≠ '*' := fun hb => h2 ⟨rfl, hb⟩
            cases rest with
            | nil =>
                show noCommentStart ['/', b] = true
                rw [noCommentStart, Bool.and_eq_true]
                exact ⟨by simp [commentPair, hb1, hb2], rfl⟩
            | cons d rest' =>
                have hd1 : ¬(b = '/' ∧ d = '/') := fun hc => hb1 hc.1
                have hd2 : ¬(b = '/' ∧ d = '*') := fun hc => hb1 hc.1
                rw [stripLineFrom_default b d rest' hd1 hd2] at ih ⊢
                rw [noCommentStart, Bool.and_eq_true]
                exact ⟨by simp [commentPair, hb1, hb2], ih⟩
          · exact noCommentStart_cons_of_ne a _ hA ih

theorem stripLineFrom_eq_self (l : Str) (h : noCommentStart l = true) :
    stripLineFrom false l = (l, false) := by
  induction l using noCommentStart.induct with
  | case1 => rfl
  | case2 c => rfl
  | case3 a b rest ih =>
      rw [noCommentStart, Bool.and_eq_true] at h
      obtain ⟨h1, h2⟩ := h
      have ha : ¬(a = '/' ∧ b = '/') := by
        rintro ⟨rfl, rfl⟩
        simp [commentPair] at h1
      have hb : ¬(a = '/' ∧ b = '*') := by
        rintro ⟨rfl, rfl⟩
        simp [commentPair] at h1
      rw [stripLineFrom_default a b rest ha hb, ih h2]

theorem stripCommentsLines_noCommentStart (t : List Str) (st : Bool) (l : Str)
    (h : l ∈ stripCommentsLines st t) : noCommentStart l = true := by
  induction t generalizing st with
  | nil => cases h
  | cons x rest ih =>
      rw [stripCommentsLines] at h
      rcases List.mem_cons.mp h with rfl | h'
      · exact stripLineFrom_noCommentStart st x
      · exact ih _ h'

theorem stripCommentsLines_eq_self (t : List Str)
    (h : ∀ l ∈ t, noCommentStart l = true) :
    stripCommentsLines false t = t := by
  induction t with
  | nil => rfl
  | cons x rest ih =>
      rw [stripCommentsLines, stripLineFrom_eq_self x (h x (List.mem_cons_self x rest))]
      exact congrArg (x :: ·) (ih (fun l hl => h l (List.mem_cons_of_mem x hl)))

theorem fullCompress_lines_noCommentStart (t : List Str) (l : Str)
    (h : l ∈ fullCompress t) : noCommentStart l = true := by
  unfold fullCompress lightCompress at h
  have hm : l ∈ (stripCommentsLines false t).map stripTrailing :=
    (collapseBlanks_sublist _).subset h
  obtain ⟨x, hx, rfl⟩ := List.mem_map.mp hm
  exact noCommentStart_stripTrailing x (stripCommentsLines_noCommentStart t false x hx)

theorem fullCompress_idem (t : List Str) :
    fullCompress (fullCompress t) = fullCompress t := by
  show lightCompress (stripCommentsLines false (fullCompress t)) = fullCompress t
  rw [stripCommentsLines_eq_self _ (fun l hl => fullCompress_lines_noCommentStart t l hl)]
  exact lightCompress_idem _

/-- C7: for every text (as its list of lines) the compression transform is
idempotent at the Light and Full levels: applying it twice yields the same
output as applying it once (transform modelled from the spec, §3). -/
theorem c7_compress_idempotent (text : List Str) :
    compress .levelLight (compress .levelLight text) =
      compress .levelLight text ∧
    compress .levelFull (compress .levelFull text) =
      compress .levelFull text :=
  ⟨lightCompress_idem text, fullCompress_idem text⟩

end SyntaxExtractor
